import Mathlib

/-!
Shallow embedding of the 2D FDTD acoustic wave solver
(src/services/waveSolver.ts together with the constants module) and proofs
of the specified properties.

Float32 arithmetic is modelled over the reals; the four Float32Arrays of
length size*size are modelled as total functions from the linear index
(idx = y*size + x, row-major) to the reals, with the convention that
indices at or past size*size are irrelevant (typed-array writes out of
range are dropped, which the definitions mirror with explicit guards).
-/

noncomputable section

namespace WaveSim

/-- Material identifiers, from the MaterialType enum in the types module. -/
inductive MaterialType
  | AIR
  | WATER
  | STEEL
  | CUSTOM
deriving DecidableEq

/-- Material speed-of-sound table, from the MATERIALS record of the
constants module (only the field the solver consults). -/
def speedOfSound : MaterialType → ℝ
  | MaterialType.AIR => 343
  | MaterialType.WATER => 1481
  | MaterialType.STEEL => 5960
  | MaterialType.CUSTOM => 300

/-- Default simulation grid side, from the constants module. -/
def GRID_SIZE : ℕ := 120

/-- Spatial step (1 cm per pixel), from the constants module. -/
def DX : ℝ := 1 / 100

/-- Time step, from the constants module. -/
def DT : ℝ := 5 / 1000000

/-- The solver state: grid side and the four per-cell arrays
(current field u, previous field uPrev, squared sound-speed map,
damping map), as in the WaveSolver class. -/
@[ext] structure WaveSolver where
  size : ℕ
  u : ℕ → ℝ
  uPrev : ℕ → ℝ
  velocityMap : ℕ → ℝ
  dampingMap : ℕ → ℝ

/-- Distance of cell (x, y) to the closest edge of a size-by-size grid,
Math.min(x, size - 1 - x, y, size - 1 - y) in WaveSolver.applyBoundaries. -/
def edgeDist (s x y : ℕ) : ℕ :=
  min (min x (s - 1 - x)) (min y (s - 1 - y))

/-- WaveSolver.applyBoundaries: for every cell whose coordinates lie within
10 cells of an edge, recompute the damping factor from the distance to the
nearest edge; other cells are untouched. Coordinates of linear index i are
x = i % size, y = i / size; the comparisons x >= size - padding are written
additively so that natural subtraction cannot truncate. -/
def applyBoundaries (w : WaveSolver) : WaveSolver :=
  let padding : ℕ := 10
  { w with dampingMap := fun i =>
      if i < w.size * w.size then
        let x := i % w.size
        let y := i / w.size
        if x < padding ∨ w.size ≤ x + padding ∨ y < padding ∨ w.size ≤ y + padding then
          let dist : ℕ := edgeDist w.size x y
          max 0.8 (1 - 0.1 * (((padding : ℝ) - (dist : ℝ)) / (padding : ℝ)))
        else w.dampingMap i
      else w.dampingMap i }

/-- WaveSolver.resetMaterialMap: fill velocityMap with the squared sound
speed of the given material and dampingMap with 1.0 over the whole grid,
then re-apply the boundary layer. -/
def resetMaterialMap (w : WaveSolver) (m : MaterialType) : WaveSolver :=
  let c := speedOfSound m
  let c2 := c * c
  applyBoundaries
    { w with
      velocityMap := fun i => if i < w.size * w.size then c2 else w.velocityMap i,
      dampingMap := fun i => if i < w.size * w.size then 1 else w.dampingMap i }

/-- WaveSolver constructor: allocate the four arrays zero-initialized
(Float32Array semantics) and initialize the material map to Air. -/
def create (size : ℕ) : WaveSolver :=
  resetMaterialMap
    { size := size
      u := fun _ => 0
      uPrev := fun _ => 0
      velocityMap := fun _ => 0
      dampingMap := fun _ => 0 }
    MaterialType.AIR

/-- One bounds-checked write of the brush loop body in
WaveSolver.updateMaterial: if the neighbor (nx, ny) lies inside the grid,
set velocityMap at index ny*size+nx to c2, otherwise change nothing. -/
def paintCell (s : ℕ) (c2 : ℝ) (vm : ℕ → ℝ) (nx ny : ℤ) : ℕ → ℝ :=
  if 0 ≤ nx ∧ nx < (s : ℤ) ∧ 0 ≤ ny ∧ ny < (s : ℤ) then
    fun i => if (i : ℤ) = ny * (s : ℤ) + nx then c2 else vm i
  else vm

/-- Brush offsets -r, ..., r of the two nested loops in
WaveSolver.updateMaterial. -/
def brushOffsets (r : ℕ) : List ℤ :=
  (List.range (2 * r + 1)).map (fun k : ℕ => (k : ℤ) - (r : ℤ))

/-- Neighbor positions visited by the nested dy (outer) / dx (inner) loops
of WaveSolver.updateMaterial, in loop order. -/
def brushCells (x y : ℤ) (r : ℕ) : List (ℤ × ℤ) :=
  (brushOffsets r).flatMap (fun dy => (brushOffsets r).map (fun dx => (x + dx, y + dy)))

/-- Sequential execution of the brush writes over a list of neighbor
positions. -/
def paintList (s : ℕ) (c2 : ℝ) (vm : ℕ → ℝ) (ps : List (ℤ × ℤ)) : ℕ → ℝ :=
  ps.foldl (fun acc p => paintCell s c2 acc p.1 p.2) vm

/-- WaveSolver.updateMaterial (the paint operation): write the squared
sound speed of the material into every in-bounds cell of the square brush
neighborhood of half-width floor(brushSize / 2) around (x, y). -/
def updateMaterial (w : WaveSolver) (x y : ℤ) (m : MaterialType) (brushSize : ℕ) : WaveSolver :=
  let c := speedOfSound m
  let c2 := c * c
  let r := brushSize / 2
  { w with velocityMap := paintList w.size c2 w.velocityMap (brushCells x y r) }

/-- Linear index of the driven source cell: the normalized coordinates are
scaled by size - 1 and floored, as in both step methods
(sx = floor(sourceX * (s - 1)), sy likewise, index sy * s + sx). -/
def sourceIndex (size : ℕ) (sourceX sourceY : ℝ) : ℤ :=
  ⌊sourceY * ((size : ℝ) - 1)⌋ * (size : ℤ) + ⌊sourceX * ((size : ℝ) - 1)⌋

/-- Hard-source injection (this.u[sourceIdx] = sourceAmp * sin(2 pi f t)):
the current field after the source write and before the stencil sweep.
A write whose index falls outside the array is dropped, per typed-array
semantics. -/
def injectSource (w : WaveSolver) (sourceFreq sourceAmp sourceX sourceY time : ℝ) : ℕ → ℝ :=
  fun i =>
    if (i : ℤ) = sourceIndex w.size sourceX sourceY ∧ i < w.size * w.size then
      sourceAmp * Real.sin (2 * Real.pi * sourceFreq * time)
    else w.u i

/-- The FDTD stencil sweep of WaveSolver.stepOptimized: the freshly
allocated uNext buffer after the double loop over the interior
(1 <= x <= size-2, 1 <= y <= size-2, linear index i = y*size + x, so the
visited indices are exactly those with 1 <= i % size <= size-2 and
1 <= i / size <= size-2). Cells the loop does not visit keep the
zero-initialization of the new Float32Array. uCur is the current field the
loop reads (the post-injection u); uPrev, velocityMap and dampingMap are
read from the solver. -/
def sweep (w : WaveSolver) (uCur : ℕ → ℝ) : ℕ → ℝ :=
  let s := w.size
  let courrantConst := (DT * DT) / (DX * DX)
  fun i =>
    if 1 ≤ i % s ∧ i % s ≤ s - 2 ∧ 1 ≤ i / s ∧ i / s ≤ s - 2 then
      (2 * uCur i - w.uPrev i +
          w.velocityMap i * courrantConst *
            (uCur (i + 1) + uCur (i - 1) + uCur (i + s) + uCur (i - s) - 4 * uCur i)) *
        w.dampingMap i
    else 0

/-- WaveSolver.stepOptimized: inject the source into the current field,
run the stencil sweep into a fresh next buffer, then cycle the buffers
(uPrev.set(u); u.set(uNext)). -/
def stepOptimized (w : WaveSolver) (sourceFreq sourceAmp sourceX sourceY time : ℝ) :
    WaveSolver :=
  let uInj := injectSource w sourceFreq sourceAmp sourceX sourceY time
  let uNext := sweep w uInj
  { w with uPrev := uInj, u := uNext }

/-- WaveSolver.step (the non-optimized method): it injects the hard source
into this.u, then its FDTD loop computes the stencil value of every
interior cell into local variables and never stores it (all writes in the
source are commented out), so the only mutation is the source write. The
discarded sweep is kept here as a dead binding to mirror the source. -/
def step (w : WaveSolver) (sourceFreq sourceAmp sourceX sourceY time : ℝ) : WaveSolver :=
  let uInj := injectSource w sourceFreq sourceAmp sourceX sourceY time
  let _uNextDiscarded := sweep w uInj
  { w with u := uInj }

/-- Repeated invocation of stepOptimized with fixed source parameters and a
sequence of elapsed times, as the simulation driver performs. -/
def iterateSteps (w : WaveSolver) (f a x y : ℝ) (t : ℕ → ℝ) : ℕ → WaveSolver
  | 0 => w
  | n + 1 => stepOptimized (iterateSteps w f a x y t n) f a x y (t n)

/-! Helper lemmas about row-major index arithmetic. -/

lemma idx_mod (s cx cy : ℕ) (hx : cx < s) : (cy * s + cx) % s = cx := by
  rw [mul_comm, Nat.mul_add_mod, Nat.mod_eq_of_lt hx]

lemma idx_div (s cx cy : ℕ) (hx : cx < s) : (cy * s + cx) / s = cy := by
  rw [mul_comm, Nat.mul_add_div (by omega), Nat.div_eq_of_lt hx, Nat.add_zero]

lemma stepOptimized_u_def (w : WaveSolver) (f a x y t : ℝ) :
    (stepOptimized w f a x y t).u = sweep w (injectSource w f a x y t) := rfl

lemma stepOptimized_uPrev_def (w : WaveSolver) (f a x y t : ℝ) :
    (stepOptimized w f a x y t).uPrev = injectSource w f a x y t := rfl

/-- Grid used to instantiate hypotheses of the universally quantified
theorems at a concrete input. -/
def testGrid3 : WaveSolver :=
  { size := 3, u := fun _ => 0, uPrev := fun _ => 0,
    velocityMap := fun _ => 0, dampingMap := fun _ => 0 }

/-- C1: one call to stepOptimized sets the new field_current value at every
interior cell i = cy*size + cx (0 < cx < size-1, 0 < cy < size-1) to
damping_map[i] * (2*u[i] - uPrev[i] + velocity_map[i] * (dt/dx)^2 *
(u[i+1] + u[i-1] + u[i+size] + u[i-size] - 4*u[i])), where u is the
pre-sweep current field after source injection and uPrev the pre-call
previous field, with dt = 0.000005 and dx = 0.01 from the constants
module. -/
theorem stepOptimized_interior_formula (w : WaveSolver) (f a x y t : ℝ) (cx cy : ℕ)
    (hx0 : 0 < cx) (hx1 : cx < w.size - 1) (hy0 : 0 < cy) (hy1 : cy < w.size - 1) :
    DT = 0.000005 ∧ DX = 0.01 ∧
      (stepOptimized w f a x y t).u (cy * w.size + cx) =
        w.dampingMap (cy * w.size + cx) *
          (2 * injectSource w f a x y t (cy * w.size + cx) -
              w.uPrev (cy * w.size + cx) +
            w.velocityMap (cy * w.size + cx) * (DT / DX) ^ 2 *
              (injectSource w f a x y t (cy * w.size + cx + 1) +
                injectSource w f a x y t (cy * w.size + cx - 1) +
                injectSource w f a x y t (cy * w.size + cx + w.size) +
                injectSource w f a x y t (cy * w.size + cx - w.size) -
                4 * injectSource w f a x y t (cy * w.size + cx))) := by
  have hs : 3 ≤ w.size := by omega
  refine ⟨by norm_num [DT], by norm_num [DX], ?_⟩
  rw [stepOptimized_u_def]
  have hcx : cx < w.size := by omega
  unfold sweep
  simp only [idx_mod _ _ _ hcx, idx_div _ _ _ hcx]
  rw [if_pos (by omega)]
  have hDX : DX ≠ 0 := by norm_num [DX]
  field_simp [DX, DT]
  ring

/-- Witness for C1 at a concrete grid and interior cell. -/
theorem stepOptimized_interior_formula_witness :
    DT = 0.000005 ∧ DX = 0.01 ∧
      (stepOptimized testGrid3 0 0 0 0 0).u (1 * testGrid3.size + 1) =
        testGrid3.dampingMap (1 * testGrid3.size + 1) *
          (2 * injectSource testGrid3 0 0 0 0 0 (1 * testGrid3.size + 1) -
              testGrid3.uPrev (1 * testGrid3.size + 1) +
            testGrid3.velocityMap (1 * testGrid3.size + 1) * (DT / DX) ^ 2 *
              (injectSource testGrid3 0 0 0 0 0 (1 * testGrid3.size + 1 + 1) +
                injectSource testGrid3 0 0 0 0 0 (1 * testGrid3.size + 1 - 1) +
                injectSource testGrid3 0 0 0 0 0 (1 * testGrid3.size + 1 + testGrid3.size) +
                injectSource testGrid3 0 0 0 0 0 (1 * testGrid3.size + 1 - testGrid3.size) -
                4 * injectSource testGrid3 0 0 0 0 0 (1 * testGrid3.size + 1))) :=
  stepOptimized_interior_formula testGrid3 0 0 0 0 0 1 1 (by decide) (by decide)
    (by decide) (by decide)

lemma floor_coord_range (s : ℕ) (x : ℝ) (hs : 1 ≤ s) (h0 : 0 ≤ x) (h1 : x ≤ 1) :
    0 ≤ ⌊x * ((s : ℝ) - 1)⌋ ∧ ⌊x * ((s : ℝ) - 1)⌋ ≤ (s : ℤ) - 1 := by
  have hs1 : (0 : ℝ) ≤ (s : ℝ) - 1 := by
    have h : (1 : ℝ) ≤ (s : ℝ) := by exact_mod_cast hs
    linarith
  constructor
  · exact Int.floor_nonneg.mpr (mul_nonneg h0 hs1)
  · have h2 : x * ((s : ℝ) - 1) ≤ (s : ℝ) - 1 := by nlinarith
    have h3 : ((s : ℝ) - 1) = (((s : ℤ) - 1 : ℤ) : ℝ) := by push_cast; ring
    calc ⌊x * ((s : ℝ) - 1)⌋ ≤ ⌊(s : ℝ) - 1⌋ := Int.floor_le_floor h2
      _ = (s : ℤ) - 1 := by rw [h3, Int.floor_intCast]

lemma sourceIndex_range (s : ℕ) (x y : ℝ) (hs : 1 ≤ s) (hx0 : 0 ≤ x) (hx1 : x ≤ 1)
    (hy0 : 0 ≤ y) (hy1 : y ≤ 1) :
    0 ≤ sourceIndex s x y ∧ sourceIndex s x y < (s : ℤ) * s := by
  obtain ⟨ha, hb⟩ := floor_coord_range s x hs hx0 hx1
  obtain ⟨hc, hd⟩ := floor_coord_range s y hs hy0 hy1
  have hsZ : (1 : ℤ) ≤ (s : ℤ) := by exact_mod_cast hs
  unfold sourceIndex
  constructor
  · exact add_nonneg (mul_nonneg hc (by linarith)) ha
  · nlinarith

/-- C2: for every prior grid state and every call with normalized source
position in the unit square, the driven cell (the cell whose scaled
coordinates are floor(x*(size-1)), floor(y*(size-1))) lies inside the grid
and is overwritten, before the stencil sweep reads the field, with exactly
amplitude * sin(2*pi*frequency*time); since the equation holds for an
arbitrary solver state w, the pre-sweep driven-cell value is independent
of all prior field contents, and the sweep (whose snapshot becomes
field_previous) reads precisely this injected field. -/
theorem injectSource_hard_source (w : WaveSolver) (f a x y t : ℝ) (hs : 1 ≤ w.size)
    (hx0 : 0 ≤ x) (hx1 : x ≤ 1) (hy0 : 0 ≤ y) (hy1 : y ≤ 1) :
    0 ≤ sourceIndex w.size x y ∧ sourceIndex w.size x y < (w.size : ℤ) * w.size ∧
      injectSource w f a x y t (sourceIndex w.size x y).toNat =
        a * Real.sin (2 * Real.pi * f * t) ∧
      (stepOptimized w f a x y t).uPrev = injectSource w f a x y t := by
  obtain ⟨h0, h1⟩ := sourceIndex_range w.size x y hs hx0 hx1 hy0 hy1
  refine ⟨h0, h1, ?_, rfl⟩
  unfold injectSource
  rw [if_pos]
  constructor
  · exact Int.toNat_of_nonneg h0
  · have hss : ((w.size * w.size : ℕ) : ℤ) = (w.size : ℤ) * w.size := by push_cast; ring
    omega

/-- Witness for C2 at a concrete grid and source configuration. -/
theorem injectSource_hard_source_witness :
    0 ≤ sourceIndex testGrid3.size 0 0 ∧
      sourceIndex testGrid3.size 0 0 < (testGrid3.size : ℤ) * testGrid3.size ∧
      injectSource testGrid3 0 0 0 0 0 (sourceIndex testGrid3.size 0 0).toNat =
        0 * Real.sin (2 * Real.pi * 0 * 0) ∧
      (stepOptimized testGrid3 0 0 0 0 0).uPrev = injectSource testGrid3 0 0 0 0 0 :=
  injectSource_hard_source testGrid3 0 0 0 0 0 (by decide) (by norm_num) (by norm_num)
    (by norm_num) (by norm_num)

/-- C3: stepOptimized obeys the double-buffering discipline: after one
call, field_previous equals the injected current field the sweep read, and
field_current equals the freshly computed next buffer; moreover the sweep
value at any cell depends only on the current level at the five stencil
points and the stored previous level, never on the buffer being written
(so the write buffer is distinct from both read buffers). -/
theorem stepOptimized_buffer_discipline (w : WaveSolver) (f a x y t : ℝ) :
    (stepOptimized w f a x y t).uPrev = injectSource w f a x y t ∧
      (stepOptimized w f a x y t).u = sweep w (injectSource w f a x y t) ∧
      ∀ uA uB : ℕ → ℝ, ∀ i : ℕ,
        uA i = uB i → uA (i + 1) = uB (i + 1) → uA (i - 1) = uB (i - 1) →
        uA (i + w.size) = uB (i + w.size) → uA (i - w.size) = uB (i - w.size) →
        sweep w uA i = sweep w uB i := by
  refine ⟨rfl, rfl, ?_⟩
  intro uA uB i h1 h2 h3 h4 h5
  simp only [sweep]
  split
  · rw [h1, h2, h3, h4, h5]
  · rfl

/-- Witness for C3 at a concrete grid, with two syntactically different
current-level buffers that agree on the stencil. -/
theorem stepOptimized_buffer_discipline_witness :
    (stepOptimized testGrid3 0 0 0 0 0).uPrev = injectSource testGrid3 0 0 0 0 0 ∧
      (stepOptimized testGrid3 0 0 0 0 0).u =
        sweep testGrid3 (injectSource testGrid3 0 0 0 0 0) ∧
      sweep testGrid3 (fun _ => 0) 4 = sweep testGrid3 (fun _ => 1 - 1) 4 :=
  have h := stepOptimized_buffer_discipline testGrid3 0 0 0 0 0
  ⟨h.1, h.2.1,
    h.2.2 (fun _ => 0) (fun _ => 1 - 1) 4 (by norm_num) (by norm_num) (by norm_num)
      (by norm_num) (by norm_num)⟩

/-- Solver state with a nonzero value on the outermost ring, used to refute
the claim that the edge cells of field_current survive a call. -/
def cexSolver : WaveSolver :=
  { size := 3, u := fun _ => 5, uPrev := fun _ => 0,
    velocityMap := fun _ => 0, dampingMap := fun _ => 0 }

/-- C4 counterexample: on a 3x3 grid whose field_current is 5 everywhere,
cell 1 lies on the top edge (its row index is 0) and is not the source
cell, yet after one stepOptimized call its field_current value is 0, not
its pre-call value 5: the buffer cycle copies the zero-initialized next
buffer over the whole current field, so edge cells do not keep their
values. -/
theorem stepOptimized_edge_preserved_cex :
    (1 : ℕ) / cexSolver.size = 0 ∧
      sourceIndex cexSolver.size 0 0 ≠ (1 : ℤ) ∧
      cexSolver.u 1 = 5 ∧
      (stepOptimized cexSolver 0 0 0 0 0).u 1 = 0 := by
  refine ⟨by decide, ?_, rfl, ?_⟩
  · norm_num [sourceIndex, cexSolver]
  · rw [stepOptimized_u_def]
    simp only [sweep]
    rw [if_neg (by decide)]

/-- C4 amended: the sweep writes only interior cells of the freshly
zero-initialized next buffer, and field_current is then replaced wholesale
by that buffer, so after one call every edge cell of field_current is 0
(regardless of its prior value), while field_previous at an edge cell is
updated to the pre-call field_current value there (with the source value
if the source cell lies on the edge). -/
theorem stepOptimized_edge_zeroed (w : WaveSolver) (f a x y t : ℝ) (i : ℕ)
    (hi : i < w.size * w.size)
    (he : i % w.size = 0 ∨ i % w.size = w.size - 1 ∨
      i / w.size = 0 ∨ i / w.size = w.size - 1) :
    (stepOptimized w f a x y t).u i = 0 ∧
      (stepOptimized w f a x y t).uPrev i = injectSource w f a x y t i := by
  refine ⟨?_, rfl⟩
  rw [stepOptimized_u_def]
  simp only [sweep]
  rw [if_neg]
  rintro ⟨h1, h2, h3, h4⟩
  omega

/-- Witness for the amended C4 at a concrete grid and edge cell. -/
theorem stepOptimized_edge_zeroed_witness :
    (stepOptimized testGrid3 0 0 0 0 0).u 0 = 0 ∧
      (stepOptimized testGrid3 0 0 0 0 0).uPrev 0 = injectSource testGrid3 0 0 0 0 0 0 :=
  stepOptimized_edge_zeroed testGrid3 0 0 0 0 0 0 (by decide) (by decide)

lemma idx_lt_sq (s cx cy : ℕ) (hx : cx < s) (hy : cy < s) : cy * s + cx < s * s := by
  have h1 : cy * s + cx < (cy + 1) * s := by rw [add_one_mul]; omega
  have h2 : (cy + 1) * s ≤ s * s := Nat.mul_le_mul_right s (by omega)
  omega

/-- Damping value of a cell of coordinates (cx, cy) after resetMaterialMap:
boundary cells (edge distance below the padding 10) carry
(90 + dist) / 100, interior cells carry 1. -/
lemma resetMaterialMap_damping_char (w : WaveSolver) (m : MaterialType) (cx cy : ℕ)
    (hx : cx < w.size) (hy : cy < w.size) :
    (resetMaterialMap w m).dampingMap (cy * w.size + cx) =
      if edgeDist w.size cx cy < 10 then (90 + (edgeDist w.size cx cy : ℝ)) / 100
      else 1 := by
  have hlt := idx_lt_sq w.size cx cy hx hy
  simp only [resetMaterialMap, applyBoundaries]
  rw [if_pos hlt]
  rw [idx_mod _ _ _ hx, idx_div _ _ _ hx]
  by_cases hd : edgeDist w.size cx cy < 10
  · rw [if_pos, if_pos hd]
    · have h9 : edgeDist w.size cx cy ≤ 9 := by omega
      have h9R : (edgeDist w.size cx cy : ℝ) ≤ 9 := by exact_mod_cast h9
      have h0R : (0 : ℝ) ≤ (edgeDist w.size cx cy : ℝ) := Nat.cast_nonneg _
      rw [max_eq_right (by push_cast; norm_num; linarith)]
      push_cast
      ring
    · unfold edgeDist at hd
      rw [min_lt_iff, min_lt_iff, min_lt_iff] at hd
      omega
  · rw [if_neg, if_neg hd, if_pos hlt]
    unfold edgeDist at hd
    rw [min_lt_iff, min_lt_iff, min_lt_iff] at hd
    omega

/-- C5: after reset_material (which re-applies the boundary layer with
padding 10), a cell whose minimum distance d to the four grid sides is at
least 10 has damping 1.0; otherwise its damping equals
max(0.8, 1.0 - 0.1 * (10 - d) / 10), is strictly below 1.0, is at least
0.8, and the damping value is monotonically non-decreasing in d. -/
theorem resetMaterialMap_damping_profile (w : WaveSolver) (m : MaterialType) (cx cy : ℕ)
    (hx : cx < w.size) (hy : cy < w.size) :
    (10 ≤ edgeDist w.size cx cy →
        (resetMaterialMap w m).dampingMap (cy * w.size + cx) = 1) ∧
      (edgeDist w.size cx cy < 10 →
        (resetMaterialMap w m).dampingMap (cy * w.size + cx) =
            max 0.8 (1 - 0.1 * ((10 - (edgeDist w.size cx cy : ℝ)) / 10)) ∧
          (resetMaterialMap w m).dampingMap (cy * w.size + cx) < 1 ∧
          0.8 ≤ (resetMaterialMap w m).dampingMap (cy * w.size + cx)) ∧
      ∀ cx2 cy2 : ℕ, cx2 < w.size → cy2 < w.size →
        edgeDist w.size cx cy ≤ edgeDist w.size cx2 cy2 →
        (resetMaterialMap w m).dampingMap (cy * w.size + cx) ≤
          (resetMaterialMap w m).dampingMap (cy2 * w.size + cx2) := by
  have hchar := resetMaterialMap_damping_char w m cx cy hx hy
  refine ⟨?_, ?_, ?_⟩
  · intro h10
    rw [hchar, if_neg (by omega)]
  · intro hd
    have h9 : edgeDist w.size cx cy ≤ 9 := by omega
    have h9R : (edgeDist w.size cx cy : ℝ) ≤ 9 := by exact_mod_cast h9
    have h0R : (0 : ℝ) ≤ (edgeDist w.size cx cy : ℝ) := Nat.cast_nonneg _
    rw [hchar, if_pos hd]
    refine ⟨?_, by linarith, by linarith⟩
    rw [max_eq_right (by norm_num; linarith)]
    ring
  · intro cx2 cy2 hx2 hy2 hle
    have hchar2 := resetMaterialMap_damping_char w m cx2 cy2 hx2 hy2
    have hleR : (edgeDist w.size cx cy : ℝ) ≤ (edgeDist w.size cx2 cy2 : ℝ) := by
      exact_mod_cast hle
    rw [hchar, hchar2]
    by_cases hd2 : edgeDist w.size cx2 cy2 < 10
    · rw [if_pos (by omega), if_pos hd2]
      linarith
    · rw [if_neg hd2]
      by_cases hd1 : edgeDist w.size cx cy < 10
      · rw [if_pos hd1]
        have h9R : (edgeDist w.size cx cy : ℝ) ≤ 9 := by
          exact_mod_cast (show edgeDist w.size cx cy ≤ 9 by omega)
        linarith
      · rw [if_neg hd1]

/-- Witness for C5 at a concrete grid and pair of cells. -/
theorem resetMaterialMap_damping_profile_witness :
    (10 ≤ edgeDist testGrid3.size 0 0 →
        (resetMaterialMap testGrid3 MaterialType.AIR).dampingMap (0 * testGrid3.size + 0) = 1) ∧
      (edgeDist testGrid3.size 0 0 < 10 →
        (resetMaterialMap testGrid3 MaterialType.AIR).dampingMap (0 * testGrid3.size + 0) =
            max 0.8 (1 - 0.1 * ((10 - (edgeDist testGrid3.size 0 0 : ℝ)) / 10)) ∧
          (resetMaterialMap testGrid3 MaterialType.AIR).dampingMap (0 * testGrid3.size + 0) < 1 ∧
          0.8 ≤ (resetMaterialMap testGrid3 MaterialType.AIR).dampingMap
            (0 * testGrid3.size + 0)) ∧
      ∀ cx2 cy2 : ℕ, cx2 < testGrid3.size → cy2 < testGrid3.size →
        edgeDist testGrid3.size 0 0 ≤ edgeDist testGrid3.size cx2 cy2 →
        (resetMaterialMap testGrid3 MaterialType.AIR).dampingMap (0 * testGrid3.size + 0) ≤
          (resetMaterialMap testGrid3 MaterialType.AIR).dampingMap
            (cy2 * testGrid3.size + cx2) :=
  resetMaterialMap_damping_profile testGrid3 MaterialType.AIR 0 0 (by decide) (by decide)

/-- Membership in the brush offset list: exactly the integers between -r
and r. -/
lemma mem_brushOffsets (r : ℕ) (d : ℤ) : d ∈ brushOffsets r ↔ -(r : ℤ) ≤ d ∧ d ≤ r := by
  unfold brushOffsets
  simp only [List.mem_map, List.mem_range]
  constructor
  · rintro ⟨k, hk, rfl⟩
    omega
  · rintro ⟨h1, h2⟩
    exact ⟨(d + (r : ℤ)).toNat, by omega, by omega⟩

/-- Membership in the visited neighbor positions: exactly the square box
of half-width r around the center. -/
lemma mem_brushCells (x y : ℤ) (r : ℕ) (p : ℤ × ℤ) :
    p ∈ brushCells x y r ↔ |p.1 - x| ≤ r ∧ |p.2 - y| ≤ r := by
  simp only [brushCells, List.mem_flatMap, List.mem_map, mem_brushOffsets, abs_le]
  constructor
  · rintro ⟨dy, hdy, dx, hdx, rfl⟩
    constructor <;> [skip; skip] <;> simp only [] <;> omega
  · rintro ⟨h1, h2⟩
    exact ⟨p.2 - y, by omega, p.1 - x, by omega, by simp⟩

/-- A neighbor position p lands in-bounds on the cell of linear index i. -/
abbrev hitsCell (s : ℕ) (i : ℕ) (p : ℤ × ℤ) : Prop :=
  0 ≤ p.1 ∧ p.1 < (s : ℤ) ∧ 0 ≤ p.2 ∧ p.2 < (s : ℤ) ∧ (i : ℤ) = p.2 * (s : ℤ) + p.1

/-- Effect of the sequential brush writes on one entry: the entry becomes
c2 exactly when some visited position lands in-bounds on it, and is
untouched otherwise. -/
lemma paintList_apply (s : ℕ) (c2 : ℝ) (vm : ℕ → ℝ) (ps : List (ℤ × ℤ)) (i : ℕ) :
    paintList s c2 vm ps i =
      if ∃ p ∈ ps, hitsCell s i p then c2 else vm i := by
  induction ps generalizing vm with
  | nil => simp [paintList]
  | cons p ps ih =>
    simp only [paintList, List.foldl_cons] at ih ⊢
    rw [ih]
    by_cases hA : ∃ q ∈ ps, hitsCell s i q
    · rw [if_pos hA, if_pos]
      obtain ⟨q, hq, hq2⟩ := hA
      exact ⟨q, List.mem_cons_of_mem p hq, hq2⟩
    · rw [if_neg hA]
      unfold paintCell
      by_cases hb : 0 ≤ p.1 ∧ p.1 < (s : ℤ) ∧ 0 ≤ p.2 ∧ p.2 < (s : ℤ)
      · rw [if_pos hb]
        by_cases hi : (i : ℤ) = p.2 * (s : ℤ) + p.1
        · simp only [hi, if_pos rfl]
          have hmem : ∃ q ∈ p :: ps, hitsCell s i q :=
            ⟨p, List.mem_cons_self p ps, hb.1, hb.2.1, hb.2.2.1, hb.2.2.2, hi⟩
          rw [if_pos hmem]
          simp
        · rw [if_neg hi, if_neg]
          rintro ⟨q, hq, hqhit⟩
          rcases List.mem_cons.mp hq with rfl | hq2
          · exact hi hqhit.2.2.2.2
          · exact hA ⟨q, hq2, hqhit⟩
      · rw [if_neg hb, if_neg]
        rintro ⟨q, hq, hqhit⟩
        rcases List.mem_cons.mp hq with rfl | hq2
        · exact hb ⟨hqhit.1, hqhit.2.1, hqhit.2.2.1, hqhit.2.2.2.1⟩
        · exact hA ⟨q, hq2, hqhit⟩

/-- Some visited brush position hits cell i exactly when i is an in-grid
cell whose coordinates lie within the clipped box around the center. -/
lemma exists_brush_hit_iff (s : ℕ) (x y : ℤ) (r : ℕ) (i : ℕ) :
    (∃ p ∈ brushCells x y r, hitsCell s i p) ↔
      i < s * s ∧ |((i % s : ℕ) : ℤ) - x| ≤ (r : ℤ) ∧ |((i / s : ℕ) : ℤ) - y| ≤ (r : ℤ) := by
  constructor
  · rintro ⟨p, hp, h0, h1, h2, h3, h4⟩
    rw [mem_brushCells] at hp
    lift p.1 to ℕ using h0 with nx hnx
    lift p.2 to ℕ using h2 with ny hny
    have hnxs : nx < s := by exact_mod_cast h1
    have hnys : ny < s := by exact_mod_cast h3
    have hieq : i = ny * s + nx := by exact_mod_cast h4
    subst hieq
    rw [idx_mod _ _ _ hnxs, idx_div _ _ _ hnxs]
    exact ⟨idx_lt_sq s nx ny hnxs hnys, hp.1, hp.2⟩
  · rintro ⟨hi, h1, h2⟩
    have hs : 0 < s := by
      rcases Nat.eq_zero_or_pos s with rfl | hs
      · simp at hi
      · exact hs
    refine ⟨(((i % s : ℕ) : ℤ), ((i / s : ℕ) : ℤ)), ?_, ?_⟩
    · rw [mem_brushCells]
      exact ⟨h1, h2⟩
    · refine ⟨Int.ofNat_nonneg _, ?_, Int.ofNat_nonneg _, ?_, ?_⟩
      · show ((i % s : ℕ) : ℤ) < (s : ℤ)
        exact_mod_cast Nat.mod_lt i hs
      · show ((i / s : ℕ) : ℤ) < (s : ℤ)
        exact_mod_cast (Nat.div_lt_iff_lt_mul hs).mpr hi
      · show (i : ℤ) = ((i / s : ℕ) : ℤ) * (s : ℤ) + ((i % s : ℕ) : ℤ)
        exact_mod_cast (Nat.div_add_mod' i s).symm

/-- Per-entry characterization of WaveSolver.updateMaterial: the squared
sound speed is written exactly into the in-grid cells of the clipped box
of half-width floor(brushSize/2) around the center, and nothing else
changes. -/
lemma updateMaterial_velocity_char (w : WaveSolver) (x y : ℤ) (m : MaterialType)
    (b : ℕ) (i : ℕ) :
    (updateMaterial w x y m b).velocityMap i =
      if i < w.size * w.size ∧ |((i % w.size : ℕ) : ℤ) - x| ≤ ((b / 2 : ℕ) : ℤ) ∧
          |((i / w.size : ℕ) : ℤ) - y| ≤ ((b / 2 : ℕ) : ℤ)
      then speedOfSound m * speedOfSound m else w.velocityMap i := by
  show paintList w.size _ w.velocityMap (brushCells x y (b / 2)) i = _
  rw [paintList_apply]
  by_cases hc : i < w.size * w.size ∧ |((i % w.size : ℕ) : ℤ) - x| ≤ ((b / 2 : ℕ) : ℤ) ∧
      |((i / w.size : ℕ) : ℤ) - y| ≤ ((b / 2 : ℕ) : ℤ)
  · rw [if_pos hc, if_pos ((exists_brush_hit_iff w.size x y (b / 2) i).mpr hc)]
  · rw [if_neg hc, if_neg (fun h => hc ((exists_brush_hit_iff w.size x y (b / 2) i).mp h))]

/-- C6: paint sets velocity_map to the squared sound speed of the material
exactly on the cells of the square neighborhood of half-width
floor(brushSize/2) around the center that lie inside the grid (out-of-range
neighbors silently skipped), leaves every other velocity_map entry
unchanged, and does not touch field_current, field_previous, damping_map
or the grid size. -/
theorem updateMaterial_box_frame (w : WaveSolver) (x y : ℤ) (m : MaterialType)
    (b : ℕ) (i : ℕ) :
    ((i < w.size * w.size ∧ |((i % w.size : ℕ) : ℤ) - x| ≤ ((b / 2 : ℕ) : ℤ) ∧
          |((i / w.size : ℕ) : ℤ) - y| ≤ ((b / 2 : ℕ) : ℤ)) →
        (updateMaterial w x y m b).velocityMap i = speedOfSound m ^ 2) ∧
      (¬(i < w.size * w.size ∧ |((i % w.size : ℕ) : ℤ) - x| ≤ ((b / 2 : ℕ) : ℤ) ∧
          |((i / w.size : ℕ) : ℤ) - y| ≤ ((b / 2 : ℕ) : ℤ)) →
        (updateMaterial w x y m b).velocityMap i = w.velocityMap i) ∧
      (updateMaterial w x y m b).u = w.u ∧
      (updateMaterial w x y m b).uPrev = w.uPrev ∧
      (updateMaterial w x y m b).dampingMap = w.dampingMap ∧
      (updateMaterial w x y m b).size = w.size := by
  refine ⟨?_, ?_, rfl, rfl, rfl, rfl⟩
  · intro hc
    rw [updateMaterial_velocity_char, if_pos hc, sq]
  · intro hc
    rw [updateMaterial_velocity_char, if_neg hc]

/-- Witness for C6 at a concrete grid: brush of size 1 at the origin
writes the origin cell and leaves a cell outside the box unchanged. -/
theorem updateMaterial_box_frame_witness :
    (updateMaterial testGrid3 0 0 MaterialType.AIR 1).velocityMap 0 =
        speedOfSound MaterialType.AIR ^ 2 ∧
      (updateMaterial testGrid3 0 0 MaterialType.AIR 1).velocityMap 5 =
        testGrid3.velocityMap 5 ∧
      (updateMaterial testGrid3 0 0 MaterialType.AIR 1).u = testGrid3.u :=
  have h0 := updateMaterial_box_frame testGrid3 0 0 MaterialType.AIR 1 0
  have h5 := updateMaterial_box_frame testGrid3 0 0 MaterialType.AIR 1 5
  ⟨h0.1 (by decide), h5.2.1 (by decide), h0.2.2.1⟩

/-- C9: paint is idempotent: applying updateMaterial twice with the same
arguments yields exactly the same solver state (all four arrays and the
size) as applying it once. -/
theorem updateMaterial_idempotent (w : WaveSolver) (x y : ℤ) (m : MaterialType)
    (b : ℕ) :
    updateMaterial (updateMaterial w x y m b) x y m b = updateMaterial w x y m b := by
  have hsize : (updateMaterial w x y m b).size = w.size := rfl
  apply WaveSolver.ext
  · rfl
  · rfl
  · rfl
  · funext i
    have h1 := updateMaterial_velocity_char w x y m b i
    have h2 := updateMaterial_velocity_char (updateMaterial w x y m b) x y m b i
    rw [h2, h1]
    simp only [hsize]
    by_cases hc : i < w.size * w.size ∧ |((i % w.size : ℕ) : ℤ) - x| ≤ ((b / 2 : ℕ) : ℤ) ∧
        |((i / w.size : ℕ) : ℤ) - y| ≤ ((b / 2 : ℕ) : ℤ)
    · simp only [if_pos hc]
    · simp only [if_neg hc]
  · rfl

/-- C10: the non-optimized WaveSolver.step mutates only field_current at
the source cell, overwriting it with amplitude * sin(2*pi*frequency*time);
every other field_current entry and all of field_previous, velocity_map
and damping_map are unchanged, because the stencil values computed in its
loop are discarded, so it never advances the wave field. -/
theorem step_source_only (w : WaveSolver) (f a x y t : ℝ) :
    (step w f a x y t).uPrev = w.uPrev ∧
      (step w f a x y t).velocityMap = w.velocityMap ∧
      (step w f a x y t).dampingMap = w.dampingMap ∧
      (step w f a x y t).size = w.size ∧
      (∀ i : ℕ, ¬((i : ℤ) = sourceIndex w.size x y ∧ i < w.size * w.size) →
        (step w f a x y t).u i = w.u i) ∧
      ∀ i : ℕ, (i : ℤ) = sourceIndex w.size x y → i < w.size * w.size →
        (step w f a x y t).u i = a * Real.sin (2 * Real.pi * f * t) := by
  refine ⟨rfl, rfl, rfl, rfl, ?_, ?_⟩
  · intro i hi
    show injectSource w f a x y t i = w.u i
    unfold injectSource
    rw [if_neg hi]
  · intro i h1 h2
    show injectSource w f a x y t i = _
    unfold injectSource
    rw [if_pos ⟨h1, h2⟩]

/-- Witness for C10 at a concrete grid: a non-source cell is untouched and
the source cell takes the sinusoid value. -/
theorem step_source_only_witness :
    (step testGrid3 0 0 0 0 0).uPrev = testGrid3.uPrev ∧
      (step testGrid3 0 0 0 0 0).velocityMap = testGrid3.velocityMap ∧
      (step testGrid3 0 0 0 0 0).dampingMap = testGrid3.dampingMap ∧
      (step testGrid3 0 0 0 0 0).u 1 = testGrid3.u 1 ∧
      (step testGrid3 0 0 0 0 0).u 0 = 0 * Real.sin (2 * Real.pi * 0 * 0) :=
  have h := step_source_only testGrid3 0 0 0 0 0
  ⟨h.1, h.2.1, h.2.2.1,
    h.2.2.2.2.1 1 (by norm_num [sourceIndex, testGrid3]),
    h.2.2.2.2.2 0 (by norm_num [sourceIndex, testGrid3]) (by norm_num [testGrid3])⟩

/-- C8 (on the code as written): the constructor performs no validation of
size, so create 0 returns a perfectly ordinary solver object whose arrays
are the degenerate length-0 arrays (every entry of the model maps is the
scratch value 0 since the guards on i never hold for size 0); construction
does not fail fast. -/
theorem create_zero_size_constructs :
    (create 0).size = 0 ∧ (∀ i, (create 0).u i = 0) ∧ (∀ i, (create 0).uPrev i = 0) ∧
      (∀ i, (create 0).velocityMap i = 0) ∧ ∀ i, (create 0).dampingMap i = 0 := by
  refine ⟨rfl, fun i => rfl, fun i => rfl, ?_, ?_⟩
  · intro i
    simp [create, resetMaterialMap, applyBoundaries]
  · intro i
    simp [create, resetMaterialMap, applyBoundaries]

/-! Facts about the freshly constructed solver, feeding the stability
argument of the air scenario. -/

lemma create_velocity_air (s i : ℕ) (hi : i < s * s) :
    (create s).velocityMap i = 343 * 343 := by
  show (if i < s * s then speedOfSound MaterialType.AIR * speedOfSound MaterialType.AIR
      else (0 : ℝ)) = 343 * 343
  rw [if_pos hi]
  norm_num [speedOfSound]

lemma create_damping_bound (s i : ℕ) :
    0 ≤ (create s).dampingMap i ∧ (create s).dampingMap i ≤ 1 := by
  by_cases hi : i < s * s
  · have hs : 0 < s := by
      rcases Nat.eq_zero_or_pos s with rfl | h
      · simp at hi
      · exact h
    have hx : i % s < s := Nat.mod_lt _ hs
    have hy : i / s < s := (Nat.div_lt_iff_lt_mul hs).mpr hi
    have hchar := resetMaterialMap_damping_char
      ⟨s, fun _ => 0, fun _ => 0, fun _ => 0, fun _ => 0⟩ MaterialType.AIR (i % s) (i / s)
      hx hy
    have heq : i / s * s + i % s = i := Nat.div_add_mod' i s
    have hchar2 : (create s).dampingMap (i / s * s + i % s) =
        (if edgeDist s (i % s) (i / s) < 10
          then (90 + (edgeDist s (i % s) (i / s) : ℝ)) / 100 else 1) := hchar
    rw [heq] at hchar2
    rw [hchar2]
    by_cases hd : edgeDist s (i % s) (i / s) < 10
    · rw [if_pos hd]
      have h9 : (edgeDist s (i % s) (i / s) : ℝ) ≤ 9 := by
        exact_mod_cast (show edgeDist s (i % s) (i / s) ≤ 9 by omega)
      have h0 : (0 : ℝ) ≤ (edgeDist s (i % s) (i / s) : ℝ) := Nat.cast_nonneg _
      constructor <;> [linarith; linarith]
    · rw [if_neg hd]
      norm_num
  · have hz : (create s).dampingMap i = 0 := by
      simp only [create, resetMaterialMap, applyBoundaries]
      rw [if_neg hi, if_neg hi]
    rw [hz]
    norm_num

lemma iterateSteps_static (w : WaveSolver) (f a x y : ℝ) (t : ℕ → ℝ) (n : ℕ) :
    (iterateSteps w f a x y t n).velocityMap = w.velocityMap ∧
      (iterateSteps w f a x y t n).dampingMap = w.dampingMap ∧
      (iterateSteps w f a x y t n).size = w.size := by
  induction n with
  | zero => exact ⟨rfl, rfl, rfl⟩
  | succ n ih => exact ⟨ih.1, ih.2.1, ih.2.2⟩

/-- One step of the scheme at most quadruples a uniform bound on both
buffers, provided the material is uniform air, the damping factors lie in
[0, 1] and the bound dominates the source amplitude: the Courant factor
343^2 * (DT/DX)^2 is about 0.0294, so the stencil combination is bounded
by (3 + 8 * 0.0294) < 4 times the old bound. -/
lemma stepOptimized_quadruple_bound (w : WaveSolver) (f a x y t : ℝ) (M : ℝ)
    (hM0 : 0 ≤ M) (hMa : |a| ≤ M)
    (hvel : ∀ i, i < w.size * w.size → w.velocityMap i = 343 * 343)
    (hdamp : ∀ i, 0 ≤ w.dampingMap i ∧ w.dampingMap i ≤ 1)
    (hu : ∀ i, |w.u i| ≤ M) (hp : ∀ i, |w.uPrev i| ≤ M) :
    (∀ i, |(stepOptimized w f a x y t).u i| ≤ 4 * M) ∧
      ∀ i, |(stepOptimized w f a x y t).uPrev i| ≤ 4 * M := by
  have hinj : ∀ i, |injectSource w f a x y t i| ≤ M := by
    intro i
    unfold injectSource
    split
    · have hsin : |Real.sin (2 * Real.pi * f * t)| ≤ 1 :=
        abs_le.mpr ⟨Real.neg_one_le_sin _, Real.sin_le_one _⟩
      calc |a * Real.sin (2 * Real.pi * f * t)|
          = |a| * |Real.sin (2 * Real.pi * f * t)| := abs_mul _ _
        _ ≤ M * 1 := mul_le_mul hMa hsin (abs_nonneg _) hM0
        _ = M := mul_one M
    · exact hu i
  constructor
  · intro i
    show |sweep w (injectSource w f a x y t) i| ≤ 4 * M
    simp only [sweep]
    split
    · rename_i hcond
      obtain ⟨h1, h2, h3, h4⟩ := hcond
      have hs0 : 0 < w.size := by
        rcases Nat.eq_zero_or_pos w.size with hz | h
        · rw [hz] at h3; simp at h3
        · exact h
      have hilt : i < w.size * w.size := by
        have heq : i / w.size * w.size + i % w.size = i := Nat.div_add_mod' i w.size
        have h5 : i / w.size * w.size ≤ (w.size - 2) * w.size :=
          Nat.mul_le_mul_right _ h4
        have h6 : (w.size - 2) * w.size + w.size ≤ w.size * w.size := by
          have h7 : w.size - 2 + 1 ≤ w.size - 1 := by
            have := Nat.mod_lt i hs0
            omega
          have h8 : (w.size - 2 + 1) * w.size ≤ (w.size - 1) * w.size :=
            Nat.mul_le_mul_right _ h7
          have h9 : (w.size - 1) * w.size ≤ w.size * w.size :=
            Nat.mul_le_mul_right _ (by omega)
          rw [add_one_mul] at h8
          omega
        have hmodlt : i % w.size < w.size := Nat.mod_lt _ hs0
        omega
      rw [hvel i hilt, abs_mul]
      have hdampabs : |w.dampingMap i| ≤ 1 := by
        rw [abs_of_nonneg (hdamp i).1]
        exact (hdamp i).2
      have hstep : ∀ b : ℝ, |b| ≤ 4 * M → |b| * |w.dampingMap i| ≤ 4 * M := by
        intro b hb
        calc |b| * |w.dampingMap i| ≤ |b| * 1 :=
              mul_le_mul_of_nonneg_left hdampabs (abs_nonneg _)
          _ = |b| := mul_one _
          _ ≤ 4 * M := hb
      apply hstep
      have hck : (343 * 343 : ℝ) * ((DT * DT) / (DX * DX)) = 117649 / 4000000 := by
        norm_num [DT, DX]
      rw [hck, abs_le]
      have e0 := abs_le.mp (hinj i)
      have e1 := abs_le.mp (hinj (i + 1))
      have e2 := abs_le.mp (hinj (i - 1))
      have e3 := abs_le.mp (hinj (i + w.size))
      have e4 := abs_le.mp (hinj (i - w.size))
      have ep := abs_le.mp (hp i)
      constructor
      · nlinarith [e0.1, e0.2, e1.1, e2.1, e3.1, e4.1, ep.2, hM0]
      · nlinarith [e0.1, e0.2, e1.2, e2.2, e3.2, e4.2, ep.1, hM0]
    · rw [abs_zero]
      linarith
  · intro i
    show |injectSource w f a x y t i| ≤ 4 * M
    have h := hinj i
    linarith

/-- Uniform bound |a| * 4^n on both buffers after n steps from the
freshly created all-air, all-zero grid. -/
lemma iterateSteps_bound (s : ℕ) (f a x y : ℝ) (t : ℕ → ℝ) (n : ℕ) :
    (∀ i, |(iterateSteps (create s) f a x y t n).u i| ≤ |a| * 4 ^ n) ∧
      ∀ i, |(iterateSteps (create s) f a x y t n).uPrev i| ≤ |a| * 4 ^ n := by
  induction n with
  | zero =>
    constructor <;> intro i
    · show |(0 : ℝ)| ≤ |a| * 4 ^ 0
      rw [abs_zero, pow_zero, mul_one]
      exact abs_nonneg a
    · show |(0 : ℝ)| ≤ |a| * 4 ^ 0
      rw [abs_zero, pow_zero, mul_one]
      exact abs_nonneg a
  | succ n ih =>
    have hstat := iterateSteps_static (create s) f a x y t n
    have h4n : (1 : ℝ) ≤ 4 ^ n := by
      calc (1 : ℝ) = 1 ^ n := (one_pow n).symm
        _ ≤ 4 ^ n := pow_le_pow_left (by norm_num) (by norm_num) n
    have hstep := stepOptimized_quadruple_bound (iterateSteps (create s) f a x y t n)
      f a x y (t n) (|a| * 4 ^ n)
      (by positivity)
      (by nlinarith [abs_nonneg a])
      (by
        intro i hi
        rw [hstat.1]
        apply create_velocity_air
        rwa [hstat.2.2, show (create s).size = s from rfl] at hi)
      (by
        intro i
        rw [hstat.2.1]
        exact create_damping_bound s i)
      ih.1 ih.2
    constructor <;> intro i
    · have h := hstep.1 i
      calc |(iterateSteps (create s) f a x y t (n + 1)).u i| ≤ 4 * (|a| * 4 ^ n) := h
        _ = |a| * 4 ^ (n + 1) := by ring
    · have h := hstep.2 i
      calc |(iterateSteps (create s) f a x y t (n + 1)).uPrev i| ≤ 4 * (|a| * 4 ^ n) := h
        _ = |a| * 4 ^ (n + 1) := by ring

/-- C7: with dx = 0.01, dt = 0.000005 and the uniform air material of the
fresh grid (sound speed 343, Courant number 0.1715 below the 2D bound
1/sqrt 2), starting from all-zero fields and applying stepOptimized up to
1000 times with a fixed sinusoidal source (arbitrary elapsed-time
sequence), the absolute value of every field_current entry stays bounded
by the explicit bound |a| * 4 ^ 1000 at every one of the 1000 steps: no
divergence to infinity occurs. -/
theorem stepOptimized_stability_air (s : ℕ) (f a x y : ℝ) (t : ℕ → ℝ) (n : ℕ)
    (hn : n ≤ 1000) :
    343 * DT / DX < 1 / Real.sqrt 2 ∧
      ∀ i, |(iterateSteps (create s) f a x y t n).u i| ≤ |a| * 4 ^ 1000 := by
  constructor
  · have hsqrt_pos : 0 < Real.sqrt 2 := Real.sqrt_pos.mpr (by norm_num)
    have h4 : Real.sqrt 4 = 2 := by
      rw [show (4 : ℝ) = 2 ^ 2 by norm_num, Real.sqrt_sq (by norm_num : (0 : ℝ) ≤ 2)]
    have h2 : Real.sqrt 2 < 2 := by
      have h := Real.sqrt_lt_sqrt (by norm_num : (0 : ℝ) ≤ 2) (by norm_num : (2 : ℝ) < 4)
      rwa [h4] at h
    have hhalf : (1 : ℝ) / 2 < 1 / Real.sqrt 2 := by
      rw [div_lt_div_iff (by norm_num) hsqrt_pos]
      nlinarith
    have hval : 343 * DT / DX < 1 / 2 := by norm_num [DT, DX]
    linarith
  · intro i
    have hb := (iterateSteps_bound s f a x y t n).1 i
    have hmono : |a| * 4 ^ n ≤ |a| * 4 ^ 1000 := by
      apply mul_le_mul_of_nonneg_left _ (abs_nonneg a)
      exact pow_le_pow_right (by norm_num) hn
    linarith

/-- Witness for C7 at a concrete grid, source and step count. -/
theorem stepOptimized_stability_air_witness :
    343 * DT / DX < 1 / Real.sqrt 2 ∧
      ∀ i, |(iterateSteps (create 3) 1 1 0 0 (fun _ => 0) 2).u i| ≤ |(1 : ℝ)| * 4 ^ 1000 :=
  stepOptimized_stability_air 3 1 1 0 0 (fun _ => 0) 2 (by norm_num)

end WaveSim
